import Mathlib

/-!
Verification of the core of the Kevin Bacon movie-graph program.

The program builds an undirected graph from a flat movie/actor dataset
(one line per movie, `Title/Actor1/.../ActorN`), keeps a set of movie
titles and a set of actor names, and answers two queries:

* `path_to_actor source target` — the shortest path between two nodes
  (via the graph library's unweighted shortest-path search) together
  with a "degree" obtained by filtering movie titles out of the path
  and subtracting one from the remaining count;
* `average_number target` — the single-source shortest-path lengths to
  `target`, filtered to even distances, halved, bucketed into the seven
  histogram bins `[-0.5, 0.5), ..., [5.5, 6.5]`, with the mean of the
  halved values.

The graph library's adjacency structure is a dictionary keyed by node
whose values are insertion-ordered neighbour dictionaries; `add_edge`
inserts both directions.  The unweighted shortest-path search returns
some shortest path (tie-break among equal-length shortest paths is
implementation defined); it is modelled here as a breadth-first search
that scans frontiers in adjacency insertion order, which reproduces the
library's discovery order on the concrete graphs appearing below.
All of that is embedded below with lists standing for the
insertion-ordered dictionaries and sets.
-/

namespace KevinBacon

/-- The three data structures built by `MovieGraph.__init__`: the movie
title set, the actor name set, and the adjacency structure of the
undirected graph (node, insertion-ordered neighbour list). -/
structure MovieGraph where
  movie_titles : List String
  actor_names : List String
  adj : List (String × List String)
deriving Repr, DecidableEq

/-- Adding an element to a set (membership semantics; insertion order kept). -/
def addToSet (s : List String) (x : String) : List String :=
  if x ∈ s then s else s ++ [x]

/-- One direction of the graph library's `add_edge`: record `v` as a
neighbour of `u`, creating `u`'s entry if absent, never duplicating. -/
def adjInsert (adj : List (String × List String)) (u v : String) :
    List (String × List String) :=
  match adj with
  | [] => [(u, [v])]
  | (x, l) :: rest =>
      if x = u then (x, if v ∈ l then l else l ++ [v]) :: rest
      else (x, l) :: adjInsert rest u v

/-- `add_edge u v` on an undirected graph: insert both directions. -/
def add_edge (adj : List (String × List String)) (u v : String) :
    List (String × List String) :=
  adjInsert (adjInsert adj u v) v u

/-- Neighbour list of `v` (empty when `v` is not a node). -/
def nbrsOf : List (String × List String) → String → List String
  | [], _ => []
  | (x, l) :: rest, v => if x = v then l else nbrsOf rest v

/-- The node list of the graph (the keys of the adjacency structure). -/
def nodesOf (adj : List (String × List String)) : List String :=
  adj.map Prod.fst

/-- The whitespace stripping of Python's `str.strip` (leading and
trailing whitespace), on the underlying character list. -/
def stripChars (l : List Char) : List Char :=
  ((l.dropWhile Char.isWhitespace).reverse.dropWhile Char.isWhitespace).reverse

/-- Python's `str.split('/')`: cut the character list at every `/`
separator, keeping empty fields; the second argument accumulates the
current field in reverse. -/
def splitFields : List Char → List Char → List String
  | [], acc => [String.mk acc.reverse]
  | c :: cs, acc =>
      if c = '/' then String.mk acc.reverse :: splitFields cs []
      else splitFields cs (c :: acc)

/-- Processing one dataset line in `MovieGraph.__init__`: strip it, split
on `/`, take the first field as the movie title, add it to the movie set,
then add every remaining field to the actor set and insert an edge
between the title and that cast member. -/
def addLine (g : MovieGraph) (line : String) : MovieGraph :=
  match splitFields (stripChars line.data) [] with
  | [] => g
  | title :: cast =>
      cast.foldl
        (fun g' a =>
          { g' with
            actor_names := addToSet g'.actor_names a
            adj := add_edge g'.adj title a })
        { g with movie_titles := addToSet g.movie_titles title }

/-- `MovieGraph.__init__` over the list of dataset lines. -/
def buildGraph (lines : List String) : MovieGraph :=
  lines.foldl addLine ⟨[], [], []⟩

/-- The node list of a built graph. -/
def MovieGraph.nodes (g : MovieGraph) : List String :=
  nodesOf g.adj

/-- The failures the two queries can raise: a queried node absent from
the graph, no path between the two nodes, and division by zero in the
mean computation. -/
inductive QueryError where
  | nodeNotFound
  | noPath
  | divisionByZero
deriving Repr, DecidableEq

/-- Undirected adjacency: `v` recorded as neighbour of `u` or vice versa
(on graphs produced by `add_edge` the two coincide). -/
def Adj (g : MovieGraph) (u v : String) : Prop :=
  v ∈ nbrsOf g.adj u ∨ u ∈ nbrsOf g.adj v

instance (g : MovieGraph) (u v : String) : Decidable (Adj g u v) :=
  inferInstanceAs (Decidable (v ∈ nbrsOf g.adj u ∨ u ∈ nbrsOf g.adj v))

/-- Expand one breadth-first frontier entry (a path stored in reverse,
newest node first) by every unvisited neighbour of its newest node. -/
def expandPath (g : MovieGraph) (visited : List String) (q : List String) :
    List (List String) :=
  match q with
  | [] => []
  | v :: _ =>
      ((nbrsOf g.adj v).filter (fun w => decide (w ∉ visited))).map
        (fun w => w :: q)

/-- Level-synchronous breadth-first search for `t`: each frontier entry
is a reversed path; when some entry's newest node is `t` the first such
entry (in discovery order) is returned, reversed back. -/
def bfsLoop (g : MovieGraph) (t : String) :
    Nat → List (List String) → List String → Option (List String)
  | 0, _, _ => none
  | fuel + 1, frontier, visited =>
      match frontier.find? (fun q => decide (q.head? = some t)) with
      | some q => some q.reverse
      | none =>
          let nf := frontier.flatMap (expandPath g visited)
          bfsLoop g t fuel nf (visited ++ nf.filterMap List.head?)

/-- All node occurrences in the adjacency structure (keys and neighbour
entries); every breadth-first search visits only these nodes, so its
length bounds the number of search levels. -/
def adjSupport (g : MovieGraph) : List String :=
  g.adj.flatMap (fun e => e.1 :: e.2)

/-- Search fuel that is always sufficient (strictly more levels than the
graph has node occurrences). -/
def bfsFuel (g : MovieGraph) : Nat :=
  (adjSupport g).length + 2

/-- The library's unweighted shortest-path search from `s` to `t`:
`none` when no path exists. -/
def shortest_path (g : MovieGraph) (s t : String) : Option (List String) :=
  bfsLoop g t (bfsFuel g) [[s]] [s]

/-- `MovieGraph.path_to_actor`: raise `NodeNotFound` when either endpoint
is absent, otherwise run the shortest-path search and return the full
path (movies included) together with the count of its non-movie nodes
minus one; raise `NoPath` when the search finds no path. -/
def path_to_actor (g : MovieGraph) (s t : String) :
    Except QueryError (List String × Int) :=
  if s ∈ g.nodes ∧ t ∈ g.nodes then
    match shortest_path g s t with
    | some p =>
        .ok (p, ((p.filter (fun x => decide (x ∉ g.movie_titles))).length : Int) - 1)
    | none => .error .noPath
  else .error .nodeNotFound

/-- Add `w` to the accumulator unless it is already visited or already
accumulated (deduplication inside one search level). -/
def freshAdd (visited acc : List String) (w : String) : List String :=
  if w ∈ visited ∨ w ∈ acc then acc else acc ++ [w]

/-- The unvisited elements of `l`, first occurrences only, in order. -/
def freshDedup (visited l : List String) : List String :=
  l.foldl (freshAdd visited) []

/-- Level-synchronous single-source breadth-first search recording every
node's distance from the source: frontier k holds exactly the nodes
discovered at distance `k`. -/
def distsLoop (g : MovieGraph) :
    Nat → Nat → List String → List String → List (String × Nat)
  | 0, _, _, _ => []
  | _ + 1, _, [], _ => []
  | fuel + 1, k, f :: fr, visited =>
      let nf := freshDedup visited ((f :: fr).flatMap (fun v => nbrsOf g.adj v))
      (f :: fr).map (fun w => (w, k)) ++
        distsLoop g fuel (k + 1) nf (visited ++ nf)

/-- The library's single-source shortest-path-length dictionary for
`target`: every reachable node paired with its distance, in discovery
order (the target itself first, at distance 0). -/
def distsFrom (g : MovieGraph) (t : String) : List (String × Nat) :=
  distsLoop g (bfsFuel g) 0 [t] [t]

/-- The `values` list of `MovieGraph.average_number`: the even distances
of the dictionary, halved, in dictionary order. -/
def actorValues (g : MovieGraph) (t : String) : List Nat :=
  ((distsFrom g t).filter (fun e => e.2 % 2 == 0)).map (fun e => e.2 / 2)

/-- The seven histogram buckets drawn by `average_number`
(`bins=[i-.5 for i in range(8)]`): an integer value lands in bucket `i`
exactly when it equals `i`, values above 6 land nowhere. -/
def histCounts (values : List Nat) : List Nat :=
  (List.range 7).map (fun i => values.count i)

/-- `MovieGraph.average_number`: raise `NodeNotFound` when the target is
absent; otherwise the histogram bucket counts and the mean of the halved
even distances (division by zero when the list is empty — which the
theorems below show cannot happen for a present target). -/
def average_number (g : MovieGraph) (t : String) :
    Except QueryError (List Nat × ℚ) :=
  if t ∈ g.nodes then
    let values := actorValues g t
    if values.length = 0 then .error .divisionByZero
    else .ok (histCounts values, (values.sum : ℚ) / (values.length : ℚ))
  else .error .nodeNotFound

/-- `p` is a walk in `g`: consecutive nodes are adjacent. -/
def IsWalk (g : MovieGraph) (p : List String) : Prop :=
  p.Chain' (Adj g)

instance (g : MovieGraph) (p : List String) : Decidable (IsWalk g p) :=
  inferInstanceAs (Decidable (p.Chain' (Adj g)))

/-- `p` is a walk from `s` to `t` in `g`. -/
def WalkFT (g : MovieGraph) (s t : String) (p : List String) : Prop :=
  IsWalk g p ∧ p.head? = some s ∧ p.getLast? = some t

instance (g : MovieGraph) (s t : String) (p : List String) :
    Decidable (WalkFT g s t p) :=
  inferInstanceAs
    (Decidable (IsWalk g p ∧ p.head? = some s ∧ p.getLast? = some t))

/-- `t` is reachable from `s` by a walk of at most `n` hops. -/
def reachLe (g : MovieGraph) (s t : String) (n : Nat) : Prop :=
  ∃ p, WalkFT g s t p ∧ p.length ≤ n + 1

/-- A reversed frontier entry: a chain whose oldest (last) node is `s`. -/
def RevFrom (g : MovieGraph) (s : String) (q : List String) : Prop :=
  q.Chain' (Adj g) ∧ q.getLast? = some s

/-- Which side of the bipartition a node is classified on: `true` for
nodes in the movie title set. -/
def mside (g : MovieGraph) (v : String) : Bool :=
  decide (v ∈ g.movie_titles)

/-- The one-line dataset `Movie A/Alice/Bob` of the specification
scenarios. -/
def gScenario : MovieGraph := buildGraph ["Movie A/Alice/Bob"]

/-- A dataset in which the string `X` is both a movie title and an actor
name, connecting two ordinary actors through a collision. -/
def gCollide : MovieGraph := buildGraph ["M/Alice/X", "X/Bob"]

/-- A dataset in which the string `A` is both a movie title and an actor
name. -/
def gSelfCollide : MovieGraph := buildGraph ["M/A", "A/B"]

/-- Two movies with disjoint casts: two disconnected components. -/
def gDisc : MovieGraph :=
  buildGraph ["Movie A/Alice/Bob", "Movie B/Carol/Dave"]

/-- A collision dataset with two shortest `Ann`–`Bert` paths of equal
raw length but different numbers of movie-classified nodes; the
breadth-first tie-break picks different ones in the two directions. -/
def gAsym : MovieGraph :=
  buildGraph ["T1/Ann/T2", "T2/T3", "T5/Cleo/Bert", "T3/Bert", "T4/Ann/Cleo"]

/-- A chain of seven movies: actor `A7` is seven degrees away from `A0`,
one more than the histogram's last bucket. -/
def gChain : MovieGraph :=
  buildGraph ["M1/A0/A1", "M2/A1/A2", "M3/A2/A3", "M4/A3/A4",
    "M5/A4/A5", "M6/A5/A6", "M7/A6/A7"]

/-- Structural invariants of every graph produced by the builder:
adjacency is symmetric, every recorded edge joins a movie title and an
actor name, every node is a movie title or an actor name, and every
actor name is a node. -/
structure GoodGraph (g : MovieGraph) : Prop where
  symm : ∀ u v, v ∈ nbrsOf g.adj u → u ∈ nbrsOf g.adj v
  bip : ∀ u v, v ∈ nbrsOf g.adj u →
      (u ∈ g.movie_titles ∧ v ∈ g.actor_names) ∨
      (u ∈ g.actor_names ∧ v ∈ g.movie_titles)
  nodeSide : ∀ u, u ∈ nodesOf g.adj → u ∈ g.movie_titles ∨ u ∈ g.actor_names
  actorNode : ∀ a, a ∈ g.actor_names → a ∈ nodesOf g.adj

theorem mem_addToSet {s : List String} {x y : String} :
    x ∈ addToSet s y ↔ x ∈ s ∨ x = y := by
  unfold addToSet
  by_cases h : y ∈ s
  · simp only [if_pos h]
    constructor
    · exact Or.inl
    · rintro (hx | rfl)
      · exact hx
      · exact h
  · simp [if_neg h]

theorem nbrsOf_cons (y : String) (l : List String)
    (rest : List (String × List String)) (x : String) :
    nbrsOf ((y, l) :: rest) x = if y = x then l else nbrsOf rest x := rfl

theorem mem_nbrsOf_adjInsert :
    ∀ {adj : List (String × List String)} {u v x w : String},
    w ∈ nbrsOf (adjInsert adj u v) x ↔
      w ∈ nbrsOf adj x ∨ (x = u ∧ w = v) := by
  intro adj
  induction adj with
  | nil =>
      intro u v x w
      by_cases h : u = x
      · subst h
        simp [adjInsert, nbrsOf, nbrsOf_cons]
      · have h2 : ¬ x = u := fun hh => h hh.symm
        simp [adjInsert, nbrsOf, nbrsOf_cons, h, h2]
  | cons e rest ih =>
      intro u v x w
      obtain ⟨y, l⟩ := e
      by_cases hyu : y = u
      · subst hyu
        by_cases hyx : y = x
        · subst hyx
          by_cases hv : v ∈ l
          · simp only [adjInsert, if_true, eq_self_iff_true, nbrsOf_cons,
              if_pos hv, true_and]
            constructor
            · exact Or.inl
            · rintro (hw | rfl)
              · exact hw
              · exact hv
          · simp only [adjInsert, if_true, eq_self_iff_true, nbrsOf_cons,
              if_neg hv, List.mem_append, List.mem_singleton, true_and]
        · simp only [adjInsert, if_true, eq_self_iff_true, nbrsOf_cons,
            if_neg hyx]
          have hxy : ¬ x = y := fun hh => hyx hh.symm
          tauto
      · by_cases hyx : y = x
        · subst hyx
          have hxu : ¬ y = u := hyu
          simp [adjInsert, nbrsOf_cons, hyu, hxu]
        · simp [adjInsert, nbrsOf_cons, hyu, hyx, ih]

theorem mem_nbrsOf_add_edge {adj : List (String × List String)}
    {u v x w : String} :
    w ∈ nbrsOf (add_edge adj u v) x ↔
      w ∈ nbrsOf adj x ∨ (x = u ∧ w = v) ∨ (x = v ∧ w = u) := by
  unfold add_edge
  rw [mem_nbrsOf_adjInsert, mem_nbrsOf_adjInsert]
  tauto

theorem mem_nodesOf_adjInsert :
    ∀ {adj : List (String × List String)} {u v x : String},
    x ∈ nodesOf (adjInsert adj u v) ↔ x ∈ nodesOf adj ∨ x = u := by
  intro adj
  induction adj with
  | nil => intro u v x; simp [adjInsert, nodesOf]
  | cons e rest ih =>
      intro u v x
      obtain ⟨y, l⟩ := e
      by_cases hyu : y = u
      · subst hyu
        simp [adjInsert, nodesOf]
        tauto
      · have h2 := @ih u v x
        simp only [nodesOf] at h2
        simp [adjInsert, nodesOf, hyu, h2]
        tauto


theorem mem_nodesOf_add_edge {adj : List (String × List String)}
    {u v x : String} :
    x ∈ nodesOf (add_edge adj u v) ↔ x ∈ nodesOf adj ∨ x = u ∨ x = v := by
  unfold add_edge
  rw [mem_nodesOf_adjInsert, mem_nodesOf_adjInsert]
  tauto

theorem goodGraph_addEdgeStep {g : MovieGraph} {title a : String}
    (hg : GoodGraph g) (ht : title ∈ g.movie_titles) :
    GoodGraph { g with
      actor_names := addToSet g.actor_names a
      adj := add_edge g.adj title a } := by
  constructor
  · intro u v hv
    simp only [mem_nbrsOf_add_edge] at hv ⊢
    rcases hv with hv | ⟨rfl, rfl⟩ | ⟨rfl, rfl⟩
    · exact Or.inl (hg.symm u v hv)
    · tauto
    · tauto
  · intro u v hv
    simp only [mem_nbrsOf_add_edge] at hv
    rcases hv with hv | ⟨rfl, rfl⟩ | ⟨rfl, rfl⟩
    · rcases hg.bip u v hv with ⟨h1, h2⟩ | ⟨h1, h2⟩
      · exact Or.inl ⟨h1, mem_addToSet.mpr (Or.inl h2)⟩
      · exact Or.inr ⟨mem_addToSet.mpr (Or.inl h1), h2⟩
    · exact Or.inl ⟨ht, mem_addToSet.mpr (Or.inr rfl)⟩
    · exact Or.inr ⟨mem_addToSet.mpr (Or.inr rfl), ht⟩
  · intro u hu
    simp only [mem_nodesOf_add_edge] at hu
    rcases hu with hu | rfl | rfl
    · rcases hg.nodeSide u hu with h | h
      · exact Or.inl h
      · exact Or.inr (mem_addToSet.mpr (Or.inl h))
    · exact Or.inl ht
    · exact Or.inr (mem_addToSet.mpr (Or.inr rfl))
  · intro b hb
    simp only [mem_nodesOf_add_edge]
    rcases mem_addToSet.mp hb with hb | rfl
    · exact Or.inl (hg.actorNode b hb)
    · tauto

theorem goodGraph_movieGrow {g : MovieGraph} {title : String}
    (hg : GoodGraph g) :
    GoodGraph { g with movie_titles := addToSet g.movie_titles title } := by
  constructor
  · exact hg.symm
  · intro u v hv
    rcases hg.bip u v hv with ⟨h1, h2⟩ | ⟨h1, h2⟩
    · exact Or.inl ⟨mem_addToSet.mpr (Or.inl h1), h2⟩
    · exact Or.inr ⟨h1, mem_addToSet.mpr (Or.inl h2)⟩
  · intro u hu
    rcases hg.nodeSide u hu with h | h
    · exact Or.inl (mem_addToSet.mpr (Or.inl h))
    · exact Or.inr h
  · exact hg.actorNode

theorem goodGraph_innerFold {title : String} :
    ∀ (cast : List String) (g : MovieGraph), GoodGraph g →
      title ∈ g.movie_titles →
      GoodGraph (cast.foldl
        (fun g' a =>
          { g' with
            actor_names := addToSet g'.actor_names a
            adj := add_edge g'.adj title a }) g) := by
  intro cast
  induction cast with
  | nil => intro g hg _; exact hg
  | cons a rest ih =>
      intro g hg ht
      exact ih _ (goodGraph_addEdgeStep hg ht) ht

theorem goodGraph_addLine {g : MovieGraph} (hg : GoodGraph g)
    (line : String) : GoodGraph (addLine g line) := by
  unfold addLine
  cases h : splitFields (stripChars line.data) [] with
  | nil => exact hg
  | cons title cast =>
      exact goodGraph_innerFold cast _ (goodGraph_movieGrow hg)
        (mem_addToSet.mpr (Or.inr rfl))

theorem buildGraph_good (lines : List String) :
    GoodGraph (buildGraph lines) := by
  unfold buildGraph
  have base : GoodGraph ⟨[], [], []⟩ := by
    constructor <;> intro u <;> simp [nbrsOf, nodesOf]
  revert base
  generalize (⟨[], [], []⟩ : MovieGraph) = g0
  induction lines generalizing g0 with
  | nil => intro h; exact h
  | cons l rest ih =>
      intro h
      exact ih _ (goodGraph_addLine h l)

theorem adj_symm {g : MovieGraph} {u v : String} (h : Adj g u v) : Adj g v u :=
  h.symm

theorem walkFT_singleton (g : MovieGraph) (s : String) : WalkFT g s s [s] :=
  ⟨List.chain'_singleton s, rfl, rfl⟩

theorem walkFT_reverse {g : MovieGraph} {s t : String} {p : List String}
    (h : WalkFT g s t p) : WalkFT g t s p.reverse := by
  obtain ⟨hc, hh, hl⟩ := h
  refine ⟨?_, ?_, ?_⟩
  · exact List.chain'_reverse.mpr (hc.imp fun a b hab => adj_symm hab)
  · rw [List.head?_reverse]; exact hl
  · rw [List.getLast?_reverse]; exact hh

theorem walkFT_ne_nil {g : MovieGraph} {s t : String} {p : List String}
    (h : WalkFT g s t p) : p ≠ [] := by
  intro h0
  rw [h0] at h
  exact Option.noConfusion h.2.1

theorem walkFT_append {g : MovieGraph} {s v w : String} {p : List String}
    (h : WalkFT g s v p) (ha : Adj g v w) : WalkFT g s w (p ++ [w]) := by
  obtain ⟨hc, hh, hl⟩ := h
  have hne : p ≠ [] := by intro h0; rw [h0] at hh; exact Option.noConfusion hh
  refine ⟨?_, ?_, List.getLast?_concat p⟩
  · rw [IsWalk, List.chain'_append]
    refine ⟨hc, List.chain'_singleton w, ?_⟩
    intro x hx y hy
    rw [hl] at hx
    simp only [List.head?, Option.mem_def, Option.some_inj] at hx hy
    rw [← hx, ← hy]
    exact ha
  · rw [List.head?_append_of_ne_nil p hne]; exact hh

theorem walkFT_dropLast {g : MovieGraph} {s w : String} {p : List String}
    (h : WalkFT g s w p) (hlen : 2 ≤ p.length) :
    ∃ v, WalkFT g s v p.dropLast ∧ Adj g v w ∧
      p.dropLast.length = p.length - 1 := by
  obtain ⟨hc, hh, hl⟩ := h
  have hne : p ≠ [] := by intro h0; rw [h0] at hh; exact Option.noConfusion hh
  have hw : p.getLast hne = w := by
    rw [List.getLast?_eq_getLast p hne] at hl
    exact Option.some_inj.mp hl
  have hdec : p.dropLast ++ [w] = p := by
    rw [← hw]; exact List.dropLast_append_getLast hne
  have hdne : p.dropLast ≠ [] := by
    intro h0
    have := List.length_dropLast p
    rw [h0] at this
    simp at this
    omega
  have hcs : (p.dropLast ++ [w]).Chain' (Adj g) := by rw [hdec]; exact hc
  rw [List.chain'_append] at hcs
  obtain ⟨hc1, -, hrel⟩ := hcs
  refine ⟨p.dropLast.getLast hdne, ⟨hc1, ?_, List.getLast?_eq_getLast _ hdne⟩,
    ?_, List.length_dropLast p⟩
  · have hhd : (p.dropLast ++ [w]).head? = p.dropLast.head? :=
      List.head?_append_of_ne_nil p.dropLast hdne
    rw [hdec] at hhd
    rw [← hhd]
    exact hh
  · exact hrel _ (List.getLast?_eq_getLast _ hdne) w rfl

theorem reachLe_mono {g : MovieGraph} {s t : String} {m n : Nat}
    (h : reachLe g s t m) (hmn : m ≤ n) : reachLe g s t n := by
  obtain ⟨p, hp, hlen⟩ := h
  exact ⟨p, hp, hlen.trans (by omega)⟩

theorem reachLe_zero {g : MovieGraph} {s w : String} :
    reachLe g s w 0 ↔ w = s := by
  constructor
  · rintro ⟨p, ⟨hc, hh, hl⟩, hlen⟩
    cases p with
    | nil => exact absurd hh (by simp)
    | cons a q =>
        cases q with
        | nil =>
            simp only [List.head?, Option.some_inj] at hh
            simp only [List.getLast?_singleton, Option.some_inj] at hl
            rw [← hl, hh]
        | cons b r => simp at hlen
  · intro h
    rw [h]
    exact ⟨[s], walkFT_singleton g s, by simp⟩

theorem reachLe_of_walk {g : MovieGraph} {s t : String} {p : List String}
    (h : WalkFT g s t p) : reachLe g s t (p.length - 1) := by
  refine ⟨p, h, ?_⟩
  have := walkFT_ne_nil h
  have : 1 ≤ p.length := by
    cases p with
    | nil => exact absurd rfl this
    | cons a q => simp
  omega

theorem reachLe_step {g : MovieGraph} {s v w : String} {n : Nat}
    (h : reachLe g s v n) (ha : Adj g v w) : reachLe g s w (n + 1) := by
  obtain ⟨p, hp, hlen⟩ := h
  refine ⟨p ++ [w], walkFT_append hp ha, ?_⟩
  simp
  omega

theorem decide_not_movie (g : MovieGraph) (x : String) :
    (decide (x ∉ g.movie_titles)) = !(mside g x) := by
  simp [mside]

theorem alt_filter_count {g : MovieGraph}
    (HB : ∀ u v, Adj g u v → mside g v = !(mside g u)) :
    ∀ (p : List String) (a : String), p.Chain' (Adj g) → p.head? = some a →
    (p.filter (fun x => decide (x ∉ g.movie_titles))).length =
      cond (mside g a) (p.length / 2) ((p.length + 1) / 2) := by
  intro p
  induction p with
  | nil => intro a _ hh; exact absurd hh (by simp)
  | cons b q ih =>
      intro a hc hh
      simp only [List.head?, Option.some_inj] at hh
      subst hh
      cases q with
      | nil =>
          cases hm : mside g b
          · simp [List.filter_cons, decide_not_movie, hm, of_decide_eq_false hm]
          · simp [List.filter_cons, decide_not_movie, hm, of_decide_eq_true hm]
      | cons c r =>
          have hadj : Adj g b c := (List.chain'_cons.mp hc).1
          have hc2 : (c :: r).Chain' (Adj g) := (List.chain'_cons.mp hc).2
          have hbc := HB b c hadj
          have ihc := ih c hc2 rfl
          cases hm : mside g b
          · have hmc : mside g c = true := by rw [hbc, hm]; rfl
            rw [hmc, cond_true] at ihc
            have hfb : (decide (b ∉ g.movie_titles)) = true := by
              rw [decide_not_movie, hm]; rfl
            rw [List.filter_cons, hfb, if_pos rfl, List.length_cons, ihc,
              cond_false]
            simp only [List.length_cons]
            omega
          · have hmc : mside g c = false := by rw [hbc, hm]; rfl
            rw [hmc, cond_false] at ihc
            have hfb : (decide (b ∉ g.movie_titles)) = false := by
              rw [decide_not_movie, hm]; rfl
            rw [List.filter_cons, hfb, if_neg (by simp), ihc, cond_true]
            simp only [List.length_cons]

theorem alt_last {g : MovieGraph}
    (HB : ∀ u v, Adj g u v → mside g v = !(mside g u)) :
    ∀ (p : List String) (a z : String), p.Chain' (Adj g) →
    p.head? = some a → p.getLast? = some z →
    mside g z = ((mside g a).xor (decide (p.length % 2 = 0))) := by
  intro p
  induction p with
  | nil => intro a z _ hh _; exact absurd hh (by simp)
  | cons b q ih =>
      intro a z hc hh hl
      simp only [List.head?, Option.some_inj] at hh
      subst hh
      cases q with
      | nil =>
          simp only [List.getLast?_singleton, Option.some_inj] at hl
          rw [← hl]
          simp
      | cons c r =>
          have hadj : Adj g b c := (List.chain'_cons.mp hc).1
          have hc2 : (c :: r).Chain' (Adj g) := (List.chain'_cons.mp hc).2
          have hbc := HB b c hadj
          have hl2 : (c :: r).getLast? = some z := by
            rw [← List.getLast?_cons_cons (a := b)]; exact hl
          have ihc := ih c z hc2 rfl hl2
          rw [ihc, hbc]
          cases hd : decide ((c :: r).length % 2 = 0)
          · have hev : (b :: c :: r).length % 2 = 0 := by
              have := of_decide_eq_false hd
              simp only [List.length_cons] at this ⊢
              omega
            rw [decide_eq_true hev]
            cases mside g b <;> rfl
          · have hev : ¬ ((b :: c :: r).length % 2 = 0) := by
              have := of_decide_eq_true hd
              simp only [List.length_cons] at this ⊢
              omega
            rw [decide_eq_false hev]
            cases mside g b <;> rfl

theorem walk_even_hops {g : MovieGraph} {s t : String} {p : List String}
    (HB : ∀ u v, Adj g u v → mside g v = !(mside g u))
    (h : WalkFT g s t p) (hs : mside g s = false) (ht : mside g t = false) :
    p.length % 2 = 1 ∧
    (p.filter (fun x => decide (x ∉ g.movie_titles))).length =
      (p.length + 1) / 2 := by
  obtain ⟨hc, hh, hl⟩ := h
  have hpar := alt_last HB p s t hc hh hl
  rw [hs, ht] at hpar
  have hlen : ¬ (p.length % 2 = 0) := by
    intro h0
    rw [decide_eq_true h0] at hpar
    exact Bool.noConfusion hpar
  have hcnt := alt_filter_count HB p s hc hh
  rw [hs, cond_false] at hcnt
  exact ⟨by omega, hcnt⟩

theorem mem_expandPath {g : MovieGraph} {visited q r : List String} :
    r ∈ expandPath g visited q ↔
      ∃ v w, q.head? = some v ∧ w ∈ nbrsOf g.adj v ∧ w ∉ visited ∧
        r = w :: q := by
  cases q with
  | nil => simp [expandPath]
  | cons v rest =>
      simp only [expandPath, List.mem_map, List.mem_filter, List.head?,
        Option.some_inj]
      constructor
      · rintro ⟨w, ⟨hw, hnv⟩, rfl⟩
        exact ⟨v, w, rfl, hw, of_decide_eq_true hnv, rfl⟩
      · rintro ⟨v', w, hv, hw, hnv, rfl⟩
        subst hv
        exact ⟨w, ⟨hw, decide_eq_true hnv⟩, rfl⟩

theorem revFrom_walkFT {g : MovieGraph} {s w : String} {q : List String}
    (h : RevFrom g s q) (hq : q.head? = some w) : WalkFT g s w q.reverse := by
  obtain ⟨hc, hl⟩ := h
  refine ⟨List.chain'_reverse.mpr (hc.imp fun a b hab => adj_symm hab), ?_, ?_⟩
  · rw [List.head?_reverse]; exact hl
  · rw [List.getLast?_reverse]; exact hq

theorem revFrom_cons {g : MovieGraph} {s v w : String} {q : List String}
    (h : RevFrom g s q) (hq : q.head? = some v) (ha : Adj g w v) :
    RevFrom g s (w :: q) := by
  obtain ⟨hc, hl⟩ := h
  have hne : q ≠ [] := by intro h0; rw [h0] at hq; exact Option.noConfusion hq
  refine ⟨hc.cons' ?_, ?_⟩
  · intro y hy
    rw [hq] at hy
    simp only [Option.mem_def, Option.some_inj] at hy
    exact hy ▸ ha
  · cases q with
    | nil => exact absurd rfl hne
    | cons a l => rw [List.getLast?_cons_cons]; exact hl

theorem bfsLoop_walk {g : MovieGraph} {t s : String} :
    ∀ (fuel : Nat) (frontier : List (List String)) (visited : List String)
      (p : List String),
    (∀ q ∈ frontier, RevFrom g s q) →
    bfsLoop g t fuel frontier visited = some p → WalkFT g s t p := by
  intro fuel
  induction fuel with
  | zero => intro frontier visited p _ h; exact Option.noConfusion h
  | succ n ih =>
      intro frontier visited p hA h
      rw [bfsLoop] at h
      cases hf : frontier.find? (fun q => decide (q.head? = some t)) with
      | some q =>
          rw [hf] at h
          obtain rfl : q.reverse = p := Option.some_inj.mp h
          have hq := List.mem_of_find?_eq_some hf
          have hfind := List.find?_some hf
          have hqt : q.head? = some t := of_decide_eq_true hfind
          exact revFrom_walkFT (hA q hq) hqt
      | none =>
          rw [hf] at h
          refine ih _ _ p ?_ h
          intro q' hq'
          rw [List.mem_flatMap] at hq'
          obtain ⟨q, hq, hexp⟩ := hq'
          rw [mem_expandPath] at hexp
          obtain ⟨v, w, hv, hw, -, rfl⟩ := hexp
          exact revFrom_cons (hA q hq) hv (Or.inr hw)

theorem bfsLoop_spec {g : MovieGraph} {t s : String}
    (hsym : ∀ u v, v ∈ nbrsOf g.adj u → u ∈ nbrsOf g.adj v) :
    ∀ (fuel : Nat) (frontier : List (List String)) (visited : List String)
      (k : Nat) (p : List String),
    (∀ q ∈ frontier, RevFrom g s q ∧ q.length = k + 1) →
    (∀ w, w ∈ visited ↔ reachLe g s w k) →
    (∀ w, reachLe g s w k → (∀ j, j < k → ¬ reachLe g s w j) →
      ∃ q ∈ frontier, q.head? = some w) →
    (∀ j, j < k → ¬ reachLe g s t j) →
    bfsLoop g t fuel frontier visited = some p →
    WalkFT g s t p ∧ ∀ j, reachLe g s t j → p.length ≤ j + 1 := by
  intro fuel
  induction fuel with
  | zero => intro _ _ _ p _ _ _ _ h; exact Option.noConfusion h
  | succ n ih =>
      intro frontier visited k p hA hC hD hE hret
      rw [bfsLoop] at hret
      cases hf : frontier.find? (fun q => decide (q.head? = some t)) with
      | some q =>
          rw [hf] at hret
          obtain rfl : q.reverse = p := Option.some_inj.mp hret
          have hq := List.mem_of_find?_eq_some hf
          have hfind := List.find?_some hf
          have hqt : q.head? = some t := of_decide_eq_true hfind
          obtain ⟨hrf, hlen⟩ := hA q hq
          refine ⟨revFrom_walkFT hrf hqt, ?_⟩
          intro j hj
          rcases Nat.lt_or_ge j k with hjk | hjk
          · exact absurd hj (hE j hjk)
          · rw [List.length_reverse, hlen]; omega
      | none =>
          rw [hf] at hret
          have hnone := List.find?_eq_none.mp hf
          have hnt : ∀ q ∈ frontier, ¬ q.head? = some t := by
            intro q hq hqt
            exact hnone q hq (decide_eq_true hqt)
          have hret' : bfsLoop g t n (frontier.flatMap (expandPath g visited))
              (visited ++ (frontier.flatMap (expandPath g visited)).filterMap
                List.head?) = some p := hret
          set nf := frontier.flatMap (expandPath g visited) with hnf
          set visited' := visited ++ nf.filterMap List.head? with hvis
          have hnfmem : ∀ q', q' ∈ nf ↔ ∃ q ∈ frontier, ∃ v w,
              q.head? = some v ∧ w ∈ nbrsOf g.adj v ∧ w ∉ visited ∧
              q' = w :: q := by
            intro q'
            rw [hnf, List.mem_flatMap]
            constructor
            · rintro ⟨q, hq, hexp⟩
              rw [mem_expandPath] at hexp
              obtain ⟨v, w, h1, h2, h3, rfl⟩ := hexp
              exact ⟨q, hq, v, w, h1, h2, h3, rfl⟩
            · rintro ⟨q, hq, v, w, h1, h2, h3, rfl⟩
              exact ⟨q, hq, mem_expandPath.mpr ⟨v, w, h1, h2, h3, rfl⟩⟩
          have hend : ∀ q' ∈ nf, ∀ w, q'.head? = some w → w ∈ visited' := by
            intro q' hq' w hw
            rw [hvis, List.mem_append]
            right
            rw [List.mem_filterMap]
            exact ⟨q', hq', hw⟩
          have hA' : ∀ q' ∈ nf, RevFrom g s q' ∧ q'.length = (k + 1) + 1 := by
            intro q' hq'
            obtain ⟨q, hq, v, w, h1, h2, h3, rfl⟩ := (hnfmem q').mp hq'
            obtain ⟨hrf, hlen⟩ := hA q hq
            exact ⟨revFrom_cons hrf h1 (Or.inr h2), by simp [hlen]⟩
          have hkey : ∀ w, reachLe g s w (k + 1) → ¬ reachLe g s w k →
              ∃ q ∈ frontier, ∃ v, q.head? = some v ∧ w ∈ nbrsOf g.adj v ∧
                w ∉ visited := by
            intro w hw hnw
            obtain ⟨p0, hp0, hlen0⟩ := hw
            have hge : p0.length = k + 2 := by
              rcases Nat.lt_or_ge p0.length (k + 2) with hlt | hge
              · exact absurd ⟨p0, hp0, by omega⟩ hnw
              · omega
            obtain ⟨v, hpv, hadj, hlenv⟩ := walkFT_dropLast hp0 (by omega)
            have hvk : reachLe g s v k := ⟨p0.dropLast, hpv, by omega⟩
            have hvmin : ∀ j, j < k → ¬ reachLe g s v j := by
              intro j hj hrj
              exact hnw (reachLe_mono (reachLe_step hrj hadj) (by omega))
            obtain ⟨q, hq, hqv⟩ := hD v hvk hvmin
            have hwnb : w ∈ nbrsOf g.adj v := by
              rcases hadj with h | h
              · exact h
              · exact hsym w v h
            have hwnv : w ∉ visited := fun hwv => hnw ((hC w).mp hwv)
            exact ⟨q, hq, v, hqv, hwnb, hwnv⟩
          have hC' : ∀ w, w ∈ visited' ↔ reachLe g s w (k + 1) := by
            intro w
            constructor
            · intro hw
              rw [hvis, List.mem_append] at hw
              rcases hw with hw | hw
              · exact reachLe_mono ((hC w).mp hw) (by omega)
              · rw [List.mem_filterMap] at hw
                obtain ⟨q', hq', hhd⟩ := hw
                obtain ⟨hrf, hlen⟩ := hA' q' hq'
                refine ⟨q'.reverse, revFrom_walkFT hrf hhd, ?_⟩
                rw [List.length_reverse, hlen]
            · intro hw
              by_cases hk : reachLe g s w k
              · rw [hvis, List.mem_append]
                exact Or.inl ((hC w).mpr hk)
              · obtain ⟨q, hq, v, hqv, hwnb, hwnv⟩ := hkey w hw hk
                exact hend (w :: q)
                  ((hnfmem (w :: q)).mpr ⟨q, hq, v, w, hqv, hwnb, hwnv, rfl⟩)
                  w rfl
          have hD' : ∀ w, reachLe g s w (k + 1) →
              (∀ j, j < k + 1 → ¬ reachLe g s w j) →
              ∃ q' ∈ nf, q'.head? = some w := by
            intro w hw hmin
            obtain ⟨q, hq, v, hqv, hwnb, hwnv⟩ := hkey w hw (hmin k (by omega))
            exact ⟨w :: q,
              (hnfmem (w :: q)).mpr ⟨q, hq, v, w, hqv, hwnb, hwnv, rfl⟩, rfl⟩
          have hE' : ∀ j, j < k + 1 → ¬ reachLe g s t j := by
            intro j hj hr
            rcases Nat.lt_or_ge j k with hjk | hjk
            · exact hE j hjk hr
            · have hjeq : j = k := by omega
              subst hjeq
              by_cases hmin : ∀ i, i < j → ¬ reachLe g s t i
              · obtain ⟨q, hq, hqt⟩ := hD t hr hmin
                exact hnt q hq hqt
              · push_neg at hmin
                obtain ⟨i, hi, hri⟩ := hmin
                exact hE i hi hri
          exact ih nf visited' (k + 1) p hA' hC' hD' hE' hret'

theorem shortest_path_spec {g : MovieGraph} {s t : String} {p : List String}
    (hsym : ∀ u v, v ∈ nbrsOf g.adj u → u ∈ nbrsOf g.adj v)
    (h : shortest_path g s t = some p) :
    WalkFT g s t p ∧ ∀ q, WalkFT g s t q → p.length ≤ q.length := by
  have hA0 : ∀ q ∈ [[s]], RevFrom g s q ∧ q.length = 0 + 1 := by
    intro q hq
    simp only [List.mem_singleton] at hq
    subst hq
    exact ⟨⟨List.chain'_singleton s, by simp⟩, by simp⟩
  have hC0 : ∀ w, w ∈ [s] ↔ reachLe g s w 0 := by
    intro w
    simp only [List.mem_singleton]
    exact reachLe_zero.symm
  have hD0 : ∀ w, reachLe g s w 0 → (∀ j, j < 0 → ¬ reachLe g s w j) →
      ∃ q ∈ [[s]], q.head? = some w := by
    intro w hw _
    rw [reachLe_zero] at hw
    exact ⟨[s], by simp, by simp [hw]⟩
  have hE0 : ∀ j, j < 0 → ¬ reachLe g s t j := by
    intro j hj
    exact absurd hj (Nat.not_lt_zero j)
  obtain ⟨hw, hmin⟩ :=
    bfsLoop_spec hsym (bfsFuel g) [[s]] [s] 0 p hA0 hC0 hD0 hE0 h
  refine ⟨hw, ?_⟩
  intro q hq
  have h1 : 1 ≤ q.length := by
    cases q with
    | nil => exact absurd rfl (walkFT_ne_nil hq)
    | cons a l => simp
  have h2 := hmin (q.length - 1) ⟨q, hq, by omega⟩
  omega

theorem shortest_path_self (g : MovieGraph) (s : String) :
    shortest_path g s s = some [s] := by
  show bfsLoop g s (bfsFuel g) [[s]] [s] = some [s]
  have hfuel : bfsFuel g = (adjSupport g).length + 1 + 1 := rfl
  rw [hfuel, bfsLoop]
  have hfind : List.find? (fun q => decide (q.head? = some s)) [[s]]
      = some [s] := by
    simp [List.find?]
  rw [hfind]
  rfl

theorem mem_foldl_freshAdd (visited : List String) :
    ∀ (l acc : List String) (x : String),
    x ∈ l.foldl (freshAdd visited) acc ↔ x ∈ acc ∨ (x ∈ l ∧ x ∉ visited) := by
  intro l
  induction l with
  | nil => intro acc x; simp
  | cons w rest ih =>
      intro acc x
      rw [List.foldl_cons, ih]
      unfold freshAdd
      by_cases hw : w ∈ visited ∨ w ∈ acc
      · rw [if_pos hw]
        constructor
        · rintro (hx | hx)
          · exact Or.inl hx
          · exact Or.inr ⟨List.mem_cons_of_mem w hx.1, hx.2⟩
        · rintro (hx | ⟨hx1, hx2⟩)
          · exact Or.inl hx
          · rcases List.mem_cons.mp hx1 with rfl | hx1
            · rcases hw with hw | hw
              · exact absurd hw hx2
              · exact Or.inl hw
            · exact Or.inr ⟨hx1, hx2⟩
      · rw [if_neg hw]
        push_neg at hw
        constructor
        · rintro (hx | hx)
          · rcases List.mem_append.mp hx with hx | hx
            · exact Or.inl hx
            · have hxw := List.mem_singleton.mp hx
              rw [hxw]
              exact Or.inr ⟨List.mem_cons_self w rest, hw.1⟩
          · exact Or.inr ⟨List.mem_cons_of_mem w hx.1, hx.2⟩
        · rintro (hx | ⟨hx1, hx2⟩)
          · exact Or.inl (List.mem_append.mpr (Or.inl hx))
          · rcases List.mem_cons.mp hx1 with rfl | hx1
            · exact Or.inl
                (List.mem_append.mpr (Or.inr (List.mem_singleton.mpr rfl)))
            · exact Or.inr ⟨hx1, hx2⟩

theorem mem_freshDedup {visited l : List String} {x : String} :
    x ∈ freshDedup visited l ↔ x ∈ l ∧ x ∉ visited := by
  rw [freshDedup, mem_foldl_freshAdd]
  simp

theorem nodup_foldl_freshAdd (visited : List String) :
    ∀ (l acc : List String), acc.Nodup →
    (l.foldl (freshAdd visited) acc).Nodup := by
  intro l
  induction l with
  | nil => intro acc h; exact h
  | cons w rest ih =>
      intro acc h
      rw [List.foldl_cons]
      apply ih
      unfold freshAdd
      by_cases hw : w ∈ visited ∨ w ∈ acc
      · rw [if_pos hw]; exact h
      · rw [if_neg hw]
        push_neg at hw
        simp [List.nodup_append, h, hw.2, List.disjoint_singleton]

theorem freshDedup_nodup (visited l : List String) :
    (freshDedup visited l).Nodup :=
  nodup_foldl_freshAdd visited l [] List.nodup_nil

theorem distsLoop_sound {g : MovieGraph} {t : String} :
    ∀ (fuel k : Nat) (frontier visited : List String),
    (∀ w ∈ frontier, ∃ p, WalkFT g t w p ∧ p.length = k + 1) →
    ∀ e ∈ distsLoop g fuel k frontier visited,
      ∃ p, WalkFT g t e.1 p ∧ p.length = e.2 + 1 := by
  intro fuel
  induction fuel with
  | zero => intro k frontier visited _ e he; simp [distsLoop] at he
  | succ n ih =>
      intro k frontier visited hF e he
      cases frontier with
      | nil => simp [distsLoop] at he
      | cons f fr =>
          rw [distsLoop] at he
          rw [List.mem_append] at he
          rcases he with he | he
          · rw [List.mem_map] at he
            obtain ⟨w, hw, rfl⟩ := he
            exact hF w hw
          · refine ih (k + 1) _ _ ?_ e he
            intro w hw
            rw [mem_freshDedup] at hw
            obtain ⟨hw1, -⟩ := hw
            rw [List.mem_flatMap] at hw1
            obtain ⟨v, hv, hwv⟩ := hw1
            obtain ⟨p, hp, hlen⟩ := hF v hv
            refine ⟨p ++ [w], walkFT_append hp (Or.inl hwv), ?_⟩
            simp [hlen]

theorem distsLoop_keys_fresh {g : MovieGraph} :
    ∀ (fuel k : Nat) (frontier visited : List String) (x : String),
    x ∈ (distsLoop g fuel k frontier visited).map Prod.fst →
    x ∈ frontier ∨ x ∉ visited := by
  intro fuel
  induction fuel with
  | zero => intro k fr vis x hx; simp [distsLoop] at hx
  | succ n ih =>
      intro k fr vis x hx
      cases fr with
      | nil => simp [distsLoop] at hx
      | cons f fr' =>
          rw [distsLoop] at hx
          rw [List.map_append, List.mem_append] at hx
          rcases hx with hx | hx
          · left
            simpa using hx
          · rcases ih _ _ _ x hx with hx | hx
            · right; exact (mem_freshDedup.mp hx).2
            · right; intro hv; exact hx (List.mem_append.mpr (Or.inl hv))

theorem map_fst_pairs (k : Nat) (l : List String) :
    (l.map (fun w => (w, k))).map Prod.fst = l := by
  induction l with
  | nil => rfl
  | cons a r ih => simp only [List.map_cons, ih]

theorem distsLoop_keys_nodup {g : MovieGraph} :
    ∀ (fuel k : Nat) (frontier visited : List String),
    frontier.Nodup → (∀ x ∈ frontier, x ∈ visited) →
    ((distsLoop g fuel k frontier visited).map Prod.fst).Nodup := by
  intro fuel
  induction fuel with
  | zero => intro k fr vis _ _; simp [distsLoop]
  | succ n ih =>
      intro k fr vis hnd hsub
      cases fr with
      | nil => simp [distsLoop]
      | cons f fr' =>
          rw [distsLoop, List.map_append, List.nodup_append, map_fst_pairs]
          refine ⟨hnd, ?_, ?_⟩
          · apply ih
            · exact freshDedup_nodup _ _
            · intro x hx; exact List.mem_append.mpr (Or.inr hx)
          · intro x hx hy
            have hxf : x ∈ f :: fr' := by simpa using hx
            rcases distsLoop_keys_fresh _ _ _ _ x hy with h | h
            · exact (mem_freshDedup.mp h).2 (hsub x hxf)
            · exact h (List.mem_append.mpr (Or.inl (hsub x hxf)))

theorem walk_closed {g : MovieGraph} {vis : List String}
    (hsym : ∀ u v, v ∈ nbrsOf g.adj u → u ∈ nbrsOf g.adj v)
    (hclosed : ∀ v ∈ vis, ∀ w ∈ nbrsOf g.adj v, w ∈ vis) :
    ∀ (p : List String) (a b : String), WalkFT g a b p → a ∈ vis →
      b ∈ vis := by
  intro p
  induction p with
  | nil => intro a b h _; exact Option.noConfusion h.2.1
  | cons c q ih =>
      intro a b h ha
      obtain ⟨hc, hh, hl⟩ := h
      simp only [List.head?, Option.some_inj] at hh
      subst hh
      cases q with
      | nil =>
          simp only [List.getLast?_singleton, Option.some_inj] at hl
          rw [← hl]
          exact ha
      | cons d r =>
          have hadj : Adj g c d := (List.chain'_cons.mp hc).1
          have hd : d ∈ vis := by
            rcases hadj with h1 | h1
            · exact hclosed c ha d h1
            · exact hclosed c ha d (hsym d c h1)
          refine ih d b ⟨(List.chain'_cons.mp hc).2, rfl, ?_⟩ hd
          rw [← List.getLast?_cons_cons (a := c)]
          exact hl

theorem nodup_subset_length {l S : List String} (hnd : l.Nodup)
    (hsub : l ⊆ S) : l.length ≤ S.dedup.length := by
  have h1 : l.toFinset.card = l.length := List.toFinset_card_of_nodup hnd
  have h2 : l.toFinset ⊆ S.toFinset := by
    intro a ha
    rw [List.mem_toFinset] at ha ⊢
    exact hsub ha
  have h3 := Finset.card_le_card h2
  rw [h1, List.card_toFinset] at h3
  exact h3

theorem mem_nbrs_mem_support :
    ∀ (adj : List (String × List String)) (v w : String),
    w ∈ nbrsOf adj v → w ∈ adj.flatMap (fun e => e.1 :: e.2) := by
  intro adj
  induction adj with
  | nil => intro v w hw; simp [nbrsOf] at hw
  | cons e rest ih =>
      intro v w hw
      obtain ⟨y, l⟩ := e
      rw [nbrsOf_cons] at hw
      rw [List.flatMap_cons, List.mem_append]
      by_cases hyv : y = v
      · rw [if_pos hyv] at hw
        exact Or.inl (List.mem_cons_of_mem y hw)
      · rw [if_neg hyv] at hw
        exact Or.inr (ih v w hw)

theorem distsLoop_complete {g : MovieGraph} {t : String}
    (hsym : ∀ u v, v ∈ nbrsOf g.adj u → u ∈ nbrsOf g.adj v) :
    ∀ (fuel k : Nat) (fr vis pr : List String),
    vis = pr ++ fr →
    vis.Nodup →
    vis ⊆ t :: adjSupport g →
    (∀ v ∈ vis, v ∉ fr → ∀ w ∈ nbrsOf g.adj v, w ∈ vis) →
    (fr = [] ∨ (t :: adjSupport g).dedup.length + 1 ≤ fuel + vis.length) →
    ∀ (x w : String) (p : List String), w ∈ vis → WalkFT g w x p →
    x ∈ pr ∨ x ∈ (distsLoop g fuel k fr vis).map Prod.fst := by
  intro fuel
  induction fuel with
  | zero =>
      intro k fr vis pr hsplit hnd hsub hclosed hcap x w p hw hwalk
      rcases hcap with hfr | hcap
      · subst hfr
        rw [List.append_nil] at hsplit
        left
        have hx := walk_closed hsym
          (fun v hv w' hw' => hclosed v hv (by simp) w' hw') p w x hwalk hw
        rw [hsplit] at hx
        exact hx
      · exfalso
        have := nodup_subset_length hnd hsub
        omega
  | succ n ih =>
      intro k fr vis pr hsplit hnd hsub hclosed hcap x w p hw hwalk
      cases fr with
      | nil =>
          rw [List.append_nil] at hsplit
          left
          have hx := walk_closed hsym
            (fun v hv w' hw' => hclosed v hv (by simp) w' hw') p w x hwalk hw
          rw [hsplit] at hx
          exact hx
      | cons f fr' =>
          have hstep := ih (k + 1)
            (freshDedup vis ((f :: fr').flatMap (fun v => nbrsOf g.adj v)))
            (vis ++ freshDedup vis ((f :: fr').flatMap (fun v => nbrsOf g.adj v)))
            (pr ++ (f :: fr'))
            ?_ ?_ ?_ ?_ ?_ x w p
            (List.mem_append.mpr (Or.inl hw)) hwalk
          · rw [distsLoop, List.map_append, List.mem_append]
            rcases hstep with h | h
            · rcases List.mem_append.mp h with h | h
              · exact Or.inl h
              · refine Or.inr (Or.inl ?_)
                simpa using h
            · exact Or.inr (Or.inr h)
          · rw [hsplit, List.append_assoc]
          · rw [List.nodup_append]
            refine ⟨hnd, freshDedup_nodup _ _, ?_⟩
            intro a ha ha'
            exact (mem_freshDedup.mp ha').2 ha
          · intro a ha
            rcases List.mem_append.mp ha with ha | ha
            · exact hsub ha
            · obtain ⟨ha1, -⟩ := mem_freshDedup.mp ha
              rw [List.mem_flatMap] at ha1
              obtain ⟨v, -, hav⟩ := ha1
              exact List.mem_cons_of_mem t (mem_nbrs_mem_support g.adj v a hav)
          · intro v hv hvnf w' hw'
            rcases List.mem_append.mp hv with hv | hv
            · by_cases hvf : v ∈ f :: fr'
              · by_cases hw'v : w' ∈ vis
                · exact List.mem_append.mpr (Or.inl hw'v)
                · refine List.mem_append.mpr (Or.inr ?_)
                  rw [mem_freshDedup]
                  refine ⟨?_, hw'v⟩
                  rw [List.mem_flatMap]
                  exact ⟨v, hvf, hw'⟩
              · exact List.mem_append.mpr
                  (Or.inl (hclosed v hv hvf w' hw'))
            · exact absurd hv hvnf
          · cases hnf : freshDedup vis ((f :: fr').flatMap (fun v => nbrsOf g.adj v)) with
            | nil => exact Or.inl rfl
            | cons a l =>
                right
                rcases hcap with hcap | hcap
                · exact absurd hcap (by simp)
                · rw [List.length_append]
                  simp only [List.length_cons]
                  omega

theorem reaches_mem_keys {g : MovieGraph} {t x : String} {p : List String}
    (hsym : ∀ u v, v ∈ nbrsOf g.adj u → u ∈ nbrsOf g.adj v)
    (hwalk : WalkFT g t x p) :
    x ∈ (distsFrom g t).map Prod.fst := by
  have hded : (t :: adjSupport g).dedup.length ≤ (adjSupport g).length + 1 := by
    have h1 := List.Sublist.length_le (List.dedup_sublist (t :: adjSupport g))
    simpa using h1
  have h := distsLoop_complete (t := t) hsym (bfsFuel g) 0 [t] [t] []
    rfl (by simp) (by intro a ha; simp at ha; simp [ha])
    (by intro v hv hvf; simp at hv; simp [hv] at hvf)
    (by right; rw [bfsFuel]; simp only [List.length_singleton]; omega)
    x t p (by simp) hwalk
  rcases h with h | h
  · simp at h
  · exact h

theorem distsFrom_sound {g : MovieGraph} {t : String} :
    ∀ e ∈ distsFrom g t, ∃ p, WalkFT g t e.1 p ∧ p.length = e.2 + 1 := by
  apply distsLoop_sound
  intro w hw
  simp only [List.mem_singleton] at hw
  subst hw
  exact ⟨[w], walkFT_singleton g w, rfl⟩

theorem distsFrom_keys_nodup (g : MovieGraph) (t : String) :
    ((distsFrom g t).map Prod.fst).Nodup := by
  apply distsLoop_keys_nodup
  · simp
  · intro x hx; simpa using hx

theorem distsFrom_cons (g : MovieGraph) (t : String) :
    ∃ rest, distsFrom g t = (t, 0) :: rest := by
  show ∃ rest, distsLoop g (bfsFuel g) 0 [t] [t] = (t, 0) :: rest
  have hfuel : bfsFuel g = (adjSupport g).length + 1 + 1 := rfl
  rw [hfuel, distsLoop]
  exact ⟨_, rfl⟩

theorem good_HB {g : MovieGraph} (hg : GoodGraph g)
    (hdisj : ∀ x ∈ g.movie_titles, x ∉ g.actor_names) :
    ∀ u v, Adj g u v → mside g v = !(mside g u) := by
  have key : ∀ a b, b ∈ nbrsOf g.adj a → mside g b = !(mside g a) := by
    intro a b hb
    rcases hg.bip a b hb with ⟨h1, h2⟩ | ⟨h1, h2⟩
    · have h2' : b ∉ g.movie_titles := fun hbm => hdisj b hbm h2
      simp [mside, h1, h2']
    · have h1' : a ∉ g.movie_titles := fun ham => hdisj a ham h1
      simp [mside, h1', h2]
  intro u v hadj
  rcases hadj with h | h
  · exact key u v h
  · rw [key v u h, Bool.not_not]

theorem walk_last_side {g : MovieGraph} (hg : GoodGraph g) {t x : String}
    {p : List String} (hw : WalkFT g t x p) :
    x = t ∨ x ∈ g.movie_titles ∨ x ∈ g.actor_names := by
  by_cases hlen : p.length ≤ 1
  · obtain ⟨hc, hh, hl⟩ := hw
    cases p with
    | nil => exact Option.noConfusion hh
    | cons a q =>
        cases q with
        | nil =>
            left
            simp only [List.head?, Option.some_inj] at hh
            simp only [List.getLast?_singleton, Option.some_inj] at hl
            rw [← hl, hh]
        | cons b r => simp at hlen
  · obtain ⟨v, hpv, hadj, -⟩ := walkFT_dropLast hw (by omega)
    right
    rcases hadj with h | h
    · rcases hg.bip v x h with ⟨-, h2⟩ | ⟨-, h2⟩
      · exact Or.inr h2
      · exact Or.inl h2
    · rcases hg.bip x v h with ⟨h1, -⟩ | ⟨h1, -⟩
      · exact Or.inl h1
      · exact Or.inr h1

theorem distsFrom_parity {g : MovieGraph} {t : String}
    (HB : ∀ u v, Adj g u v → mside g v = !(mside g u))
    (ht : mside g t = false) :
    ∀ e ∈ distsFrom g t, (e.2 % 2 = 0 ↔ e.1 ∉ g.movie_titles) := by
  intro e he
  obtain ⟨p, hp, hlen⟩ := distsFrom_sound e he
  obtain ⟨hc, hh, hl⟩ := hp
  have halt := alt_last HB p t e.1 hc hh hl
  rw [ht, Bool.false_xor] at halt
  constructor
  · intro hev
    have hpl : ¬ (p.length % 2 = 0) := by omega
    rw [decide_eq_false hpl] at halt
    intro hmem
    have hm : mside g e.1 = true := decide_eq_true hmem
    rw [hm] at halt
    exact Bool.noConfusion halt
  · intro hnm
    have hms : mside g e.1 = false := decide_eq_false hnm
    rw [hms] at halt
    have hne : ¬ (p.length % 2 = 0) := by
      intro h0
      rw [decide_eq_true h0] at halt
      exact Bool.noConfusion halt
    omega

theorem sum_map_add (L : List Nat) (f1 f2 : Nat → Nat) :
    (L.map (fun i => f1 i + f2 i)).sum = (L.map f1).sum + (L.map f2).sum := by
  induction L with
  | nil => rfl
  | cons a r ih =>
      simp only [List.map_cons, List.sum_cons, ih]
      omega

theorem sum_indicator (x : Nat) :
    ∀ n : Nat, ((List.range n).map (fun i => if x == i then 1 else 0)).sum
      = if x < n then 1 else 0 := by
  intro n
  induction n with
  | zero => simp
  | succ m ih =>
      rw [List.range_succ, List.map_append, List.sum_append, ih]
      by_cases h2 : x = m
      · subst h2
        simp [Nat.lt_succ_self]
      · by_cases h1 : x < m
        · have hlt : x < m + 1 := by omega
          simp [h2, h1, hlt]
        · have hlt : ¬ x < m + 1 := by omega
          simp [h2, h1, hlt]

theorem sum_counts_range (n : Nat) (l : List Nat) :
    ((List.range n).map (fun i => l.count i)).sum =
      (l.filter (fun v => decide (v < n))).length := by
  induction l with
  | nil => simp
  | cons x r ih =>
      have h1 : ((List.range n).map (fun i => (x :: r).count i))
          = ((List.range n).map
              (fun i => r.count i + if x == i then 1 else 0)) :=
        List.map_congr_left (fun i _ => List.count_cons i x r)
      rw [h1, sum_map_add, ih, sum_indicator]
      by_cases hx : x < n
      · simp [List.filter_cons, hx]
      · simp [List.filter_cons, hx]

theorem histSum_eq (g : MovieGraph) (t : String) :
    (histCounts (actorValues g t)).sum =
      ((distsFrom g t).filter
        (fun e => decide (e.2 / 2 < 7) && (e.2 % 2 == 0))).length := by
  rw [histCounts, sum_counts_range, actorValues, List.filter_map,
    List.length_map, List.filter_filter]
  rfl

theorem path_to_actor_ok {g : MovieGraph} {s t : String} {p : List String}
    {d : Int} (h : path_to_actor g s t = .ok (p, d)) :
    s ∈ g.nodes ∧ t ∈ g.nodes ∧ shortest_path g s t = some p ∧
    d = ((p.filter (fun x => decide (x ∉ g.movie_titles))).length : Int) - 1 := by
  unfold path_to_actor at h
  by_cases hmem : s ∈ g.nodes ∧ t ∈ g.nodes
  · rw [if_pos hmem] at h
    cases hsp : shortest_path g s t with
    | none => rw [hsp] at h; exact Except.noConfusion h
    | some q =>
        rw [hsp] at h
        simp only [Except.ok.injEq, Prod.mk.injEq] at h
        obtain ⟨rfl, rfl⟩ := h
        exact ⟨hmem.1, hmem.2, rfl, rfl⟩
  · rw [if_neg hmem] at h
    exact Except.noConfusion h

theorem path_to_actor_absent {g : MovieGraph} {s t : String}
    (h : ¬ (s ∈ g.nodes ∧ t ∈ g.nodes)) :
    path_to_actor g s t = .error .nodeNotFound := by
  unfold path_to_actor
  rw [if_neg h]

theorem path_to_actor_noPath {g : MovieGraph} {s t : String}
    (hs : s ∈ g.nodes) (ht : t ∈ g.nodes)
    (h : ∀ p, ¬ WalkFT g s t p) :
    path_to_actor g s t = .error .noPath := by
  unfold path_to_actor
  rw [if_pos ⟨hs, ht⟩]
  cases hsp : shortest_path g s t with
  | none => rfl
  | some q =>
      exfalso
      have hrf : ∀ q' ∈ [[s]], RevFrom g s q' := by
        intro q' hq'
        simp only [List.mem_singleton] at hq'
        subst hq'
        exact ⟨List.chain'_singleton s, by simp⟩
      exact h q (bfsLoop_walk (bfsFuel g) [[s]] [s] q hrf hsp)

theorem degree_formula {g : MovieGraph} {s t : String} {p : List String}
    {d : Int} (hg : GoodGraph g)
    (hdisj : ∀ x ∈ g.movie_titles, x ∉ g.actor_names)
    (hok : path_to_actor g s t = .ok (p, d))
    (hs : s ∉ g.movie_titles) (ht : t ∉ g.movie_titles) :
    p.length % 2 = 1 ∧ d = (((p.length - 1 : Nat) / 2 : Nat) : Int) ∧
    0 ≤ d ∧ WalkFT g s t p ∧
    (∀ q, WalkFT g s t q → p.length ≤ q.length) := by
  obtain ⟨hsn, htn, hsp, hd⟩ := path_to_actor_ok hok
  obtain ⟨hw, hmin⟩ := shortest_path_spec hg.symm hsp
  have HB := good_HB hg hdisj
  obtain ⟨hodd, hcnt⟩ :=
    walk_even_hops HB hw (decide_eq_false hs) (decide_eq_false ht)
  have h1 : 1 ≤ p.length := by
    have hne := walkFT_ne_nil hw
    cases p with
    | nil => exact absurd rfl hne
    | cons a q => simp
  refine ⟨hodd, ?_, ?_, hw, hmin⟩
  · rw [hd, hcnt]
    have h2 : (p.length + 1) / 2 = (p.length - 1) / 2 + 1 := by omega
    rw [h2]
    push_cast
    ring
  · rw [hd, hcnt]
    have h3 : 1 ≤ (p.length + 1) / 2 := by omega
    omega

theorem actorValues_cons (g : MovieGraph) (t : String) :
    ∃ vrest, actorValues g t = 0 :: vrest := by
  obtain ⟨rest, hrest⟩ := distsFrom_cons g t
  refine ⟨(rest.filter (fun e => e.2 % 2 == 0)).map (fun e => e.2 / 2), ?_⟩
  rw [actorValues, hrest, List.filter_cons]
  simp

theorem actorValues_length_ne_zero (g : MovieGraph) (t : String) :
    ¬ (actorValues g t).length = 0 := by
  obtain ⟨vrest, hv⟩ := actorValues_cons g t
  rw [hv]
  simp

theorem average_number_eq (g : MovieGraph) (t : String) (ht : t ∈ g.nodes) :
    average_number g t = .ok (histCounts (actorValues g t),
      ((actorValues g t).sum : ℚ) / ((actorValues g t).length : ℚ)) := by
  simp only [average_number]
  rw [if_pos ht, if_neg (actorValues_length_ne_zero g t)]

/-- C1: the specification scenario claims the query on the graph of
`Movie A/Alice/Bob` returns the movie-free path `["Alice", "Bob"]`; the
program in fact returns the raw shortest path with the movie node
`"Movie A"` inside it (only the degree is computed from the filtered
path). -/
theorem c1_counterexample :
    path_to_actor gScenario "Alice" "Bob" =
      .ok (["Alice", "Movie A", "Bob"], 1) ∧
    path_to_actor gScenario "Alice" "Bob" ≠ .ok (["Alice", "Bob"], 1) := by
  refine ⟨rfl, ?_⟩
  intro h
  have h1 : path_to_actor gScenario "Alice" "Bob" =
      .ok (["Alice", "Movie A", "Bob"], 1) := rfl
  rw [h1] at h
  simp only [Except.ok.injEq, Prod.mk.injEq] at h
  have h2 := congrArg List.length h.1
  simp at h2

/-- C1 (amended): on the dataset line `Movie A/Alice/Bob`, the query
from `"Alice"` to `"Bob"` returns the raw shortest path
`["Alice", "Movie A", "Bob"]` (movie nodes included) with degree 1; in
general, for every graph and query that succeeds, the degree equals the
number of non-movie nodes of the returned path minus one. -/
theorem c1_raw_path_with_degree :
    path_to_actor gScenario "Alice" "Bob" =
      .ok (["Alice", "Movie A", "Bob"], 1) ∧
    ∀ (g : MovieGraph) (s t : String) (p : List String) (d : Int),
      path_to_actor g s t = .ok (p, d) →
      d = ((p.filter (fun x => decide (x ∉ g.movie_titles))).length : Int)
        - 1 := by
  refine ⟨rfl, ?_⟩
  intro g s t p d h
  exact (path_to_actor_ok h).2.2.2

/-- C1 witness: the general degree law instantiated on the scenario
graph. -/
theorem c1_raw_path_with_degree_witness :
    path_to_actor gScenario "Alice" "Bob" =
      .ok (["Alice", "Movie A", "Bob"], 1) ∧
    (1 : Int) = ((["Alice", "Movie A", "Bob"].filter
      (fun x => decide (x ∉ gScenario.movie_titles))).length : Int) - 1 :=
  ⟨rfl, c1_raw_path_with_degree.2 gScenario "Alice" "Bob"
    ["Alice", "Movie A", "Bob"] 1 rfl⟩

/-- C5: when the source or the target is not a node of the graph, the
shortest-path query fails with the node-not-found error. -/
theorem c5_absent_node_error (g : MovieGraph) (s t : String)
    (h : s ∉ g.nodes ∨ t ∉ g.nodes) :
    path_to_actor g s t = .error .nodeNotFound := by
  apply path_to_actor_absent
  tauto

/-- C5 witness: querying the absent actor `"Carol"` on the scenario
graph raises the node-not-found error. -/
theorem c5_absent_node_error_witness :
    ("Carol" ∉ gScenario.nodes ∨ "Bob" ∉ gScenario.nodes) ∧
    path_to_actor gScenario "Carol" "Bob" = .error .nodeNotFound :=
  ⟨Or.inl (by decide),
    c5_absent_node_error gScenario "Carol" "Bob" (Or.inl (by decide))⟩

/-- C7: the claim that `path_to_actor a a` returns `([a], 0)` for every
actor node fails when the actor's name is also a movie title: the
single-node path is then filtered away entirely and the degree is -1. -/
theorem c7_counterexample :
    "A" ∈ gSelfCollide.actor_names ∧ "A" ∈ gSelfCollide.nodes ∧
    path_to_actor gSelfCollide "A" "A" = .ok (["A"], -1) ∧
    path_to_actor gSelfCollide "A" "A" ≠ .ok (["A"], 0) := by
  refine ⟨by decide, by decide, rfl, ?_⟩
  intro h
  have h1 : path_to_actor gSelfCollide "A" "A" = .ok (["A"], -1) := rfl
  rw [h1] at h
  simp only [Except.ok.injEq, Prod.mk.injEq] at h
  exact absurd h.2 (by decide)

/-- C7 (amended): for every actor node of a built graph whose name is
not also a movie title, the query with source equal to target returns
the single-node path and degree 0. -/
theorem c7_self_query (lines : List String) (g : MovieGraph)
    (hg : g = buildGraph lines) (a : String)
    (ha : a ∈ g.actor_names) (hm : a ∉ g.movie_titles) :
    path_to_actor g a a = .ok ([a], 0) := by
  subst hg
  have hgood := buildGraph_good lines
  have hn : a ∈ (buildGraph lines).nodes := hgood.actorNode a ha
  unfold path_to_actor
  rw [if_pos ⟨hn, hn⟩, shortest_path_self]
  have hfa : (decide (a ∉ (buildGraph lines).movie_titles)) = true :=
    decide_eq_true hm
  simp [List.filter_cons, hfa, hm]

/-- C7 witness: the self-query for `"Alice"` on the scenario graph. -/
theorem c7_self_query_witness :
    ("Alice" ∈ gScenario.actor_names ∧ "Alice" ∉ gScenario.movie_titles) ∧
    path_to_actor gScenario "Alice" "Alice" = .ok (["Alice"], 0) :=
  ⟨⟨by decide, by decide⟩,
    c7_self_query ["Movie A/Alice/Bob"] gScenario rfl "Alice"
      (by decide) (by decide)⟩

/-- C3: the spec claims a path between two distinct actor nodes always
has odd raw-hop length; the actual parity is even — on the scenario
graph the shortest `Alice`–`Bob` walk has 2 raw hops. -/
theorem c3_counterexample :
    "Alice" ∈ gScenario.actor_names ∧ "Bob" ∈ gScenario.actor_names ∧
    "Alice" ≠ "Bob" ∧
    WalkFT gScenario "Alice" "Bob" ["Alice", "Movie A", "Bob"] ∧
    (["Alice", "Movie A", "Bob"].length - 1) = 2 ∧ ¬ Odd 2 := by
  refine ⟨by decide, by decide, by decide, ⟨?_, rfl, rfl⟩, rfl, by decide⟩
  show List.Chain' (Adj gScenario) ["Alice", "Movie A", "Bob"]
  refine List.chain'_cons.mpr ⟨by decide, ?_⟩
  refine List.chain'_cons.mpr ⟨by decide, ?_⟩
  exact List.chain'_singleton _

/-- C3 (amended): in every built graph whose movie-title and actor-name
sets are disjoint, a walk between two distinct actor nodes always has
even, positive raw-hop length. -/
theorem c3_even_hops (lines : List String) (g : MovieGraph)
    (hg : g = buildGraph lines)
    (hdisj : ∀ x ∈ g.movie_titles, x ∉ g.actor_names)
    (a b : String) (p : List String)
    (ha : a ∈ g.actor_names) (hb : b ∈ g.actor_names) (hab : a ≠ b)
    (hw : WalkFT g a b p) :
    (p.length - 1) % 2 = 0 ∧ 0 < p.length - 1 := by
  subst hg
  have hgood := buildGraph_good lines
  have HB := good_HB hgood hdisj
  have hma : a ∉ (buildGraph lines).movie_titles := fun h => hdisj a h ha
  have hmb : b ∉ (buildGraph lines).movie_titles := fun h => hdisj b h hb
  obtain ⟨hodd, -⟩ :=
    walk_even_hops HB hw (decide_eq_false hma) (decide_eq_false hmb)
  rcases Nat.lt_or_ge p.length 2 with h2 | h2
  · exfalso
    obtain ⟨hc, hh, hl⟩ := hw
    cases p with
    | nil => exact Option.noConfusion hh
    | cons x q =>
        cases q with
        | nil =>
            simp only [List.head?, Option.some_inj] at hh
            simp only [List.getLast?_singleton, Option.some_inj] at hl
            exact hab (by rw [← hh, hl])
        | cons y r =>
            simp only [List.length_cons] at h2
            omega
  · exact ⟨by omega, by omega⟩

/-- C3 witness: the even-hop theorem instantiated on the scenario
graph's two-hop walk. -/
theorem c3_even_hops_witness :
    WalkFT gScenario "Alice" "Bob" ["Alice", "Movie A", "Bob"] ∧
    ((["Alice", "Movie A", "Bob"].length - 1) % 2 = 0 ∧
      0 < ["Alice", "Movie A", "Bob"].length - 1) := by
  have hw : WalkFT gScenario "Alice" "Bob" ["Alice", "Movie A", "Bob"] := by
    refine ⟨?_, rfl, rfl⟩
    show List.Chain' (Adj gScenario) ["Alice", "Movie A", "Bob"]
    refine List.chain'_cons.mpr ⟨by decide, ?_⟩
    refine List.chain'_cons.mpr ⟨by decide, ?_⟩
    exact List.chain'_singleton _
  exact ⟨hw, c3_even_hops ["Movie A/Alice/Bob"] gScenario rfl (by decide)
    "Alice" "Bob" ["Alice", "Movie A", "Bob"] (by decide) (by decide)
    (by decide) hw⟩

/-- C2: when a string is both a movie title and an actor name the graph
is not bipartite and the degree is no longer half the raw hop count: on
`M/Alice/X`, `X/Bob` the unique `Alice`–`Bob` shortest path has 3 raw
hops but degree 1, and 3/2 is not an integer, although both endpoints
are actor names that are not movie titles. -/
theorem c2_counterexample :
    "Alice" ∈ gCollide.actor_names ∧ "Alice" ∉ gCollide.movie_titles ∧
    "Bob" ∈ gCollide.actor_names ∧ "Bob" ∉ gCollide.movie_titles ∧
    path_to_actor gCollide "Alice" "Bob" =
      .ok (["Alice", "M", "X", "Bob"], 1) ∧
    (["Alice", "M", "X", "Bob"].length - 1) = 3 ∧
    ¬ ((1 : ℚ) = (3 : ℚ) / 2) ∧ ¬ (2 ∣ 3) := by
  refine ⟨by decide, by decide, by decide, by decide, rfl, rfl, ?_, by decide⟩
  intro h
  norm_num at h

/-- C2 (amended): in every built graph whose movie-title and actor-name
sets are disjoint, for every pair of actor nodes, a successful query
returns a raw hop count that is even and a degree equal to exactly half
of it, a non-negative integer that is zero exactly when source equals
target. -/
theorem c2_degree_half_hops (lines : List String) (g : MovieGraph)
    (hg : g = buildGraph lines)
    (hdisj : ∀ x ∈ g.movie_titles, x ∉ g.actor_names)
    (s t : String) (p : List String) (d : Int)
    (hs : s ∈ g.actor_names) (ht : t ∈ g.actor_names)
    (hok : path_to_actor g s t = .ok (p, d)) :
    (p.length - 1) % 2 = 0 ∧ d = (((p.length - 1) / 2 : Nat) : Int) ∧
    0 ≤ d ∧ (d = 0 ↔ s = t) := by
  subst hg
  have hgood := buildGraph_good lines
  have hms : s ∉ (buildGraph lines).movie_titles := fun h => hdisj s h hs
  have hmt : t ∉ (buildGraph lines).movie_titles := fun h => hdisj t h ht
  obtain ⟨hodd, hd, hpos, hw, hmin⟩ :=
    degree_formula hgood hdisj hok hms hmt
  have hne := walkFT_ne_nil hw
  have h1 : 1 ≤ p.length := by
    cases p with
    | nil => exact absurd rfl hne
    | cons a q => simp
  refine ⟨by omega, hd, hpos, ?_, ?_⟩
  · intro hd0
    rw [hd] at hd0
    have h2 : (p.length - 1) / 2 = 0 := by exact_mod_cast hd0
    have hplen : p.length = 1 := by omega
    obtain ⟨hc, hh, hl⟩ := hw
    cases p with
    | nil => simp at hplen
    | cons x q =>
        cases q with
        | nil =>
            simp only [List.head?, Option.some_inj] at hh
            simp only [List.getLast?_singleton, Option.some_inj] at hl
            rw [← hh, hl]
        | cons y r => simp at hplen
  · intro hst
    subst hst
    obtain ⟨-, -, hsp, -⟩ := path_to_actor_ok hok
    rw [shortest_path_self] at hsp
    obtain rfl : [s] = p := Option.some_inj.mp hsp
    rw [hd]
    simp

/-- C2 witness: on the scenario graph the `Alice`–`Bob` query has 2 raw
hops and degree 1 = 2/2. -/
theorem c2_degree_half_hops_witness :
    path_to_actor gScenario "Alice" "Bob" =
      .ok (["Alice", "Movie A", "Bob"], 1) ∧
    ((["Alice", "Movie A", "Bob"].length - 1) % 2 = 0 ∧
      (1 : Int) = (((["Alice", "Movie A", "Bob"].length - 1) / 2 : Nat) : Int) ∧
      0 ≤ (1 : Int) ∧ ((1 : Int) = 0 ↔ "Alice" = "Bob")) :=
  ⟨rfl, c2_degree_half_hops ["Movie A/Alice/Bob"] gScenario rfl (by decide)
    "Alice" "Bob" ["Alice", "Movie A", "Bob"] 1 (by decide) (by decide) rfl⟩

/-- C6: when both endpoints are present in the graph but no path
connects them, the query fails with the no-path error. -/
theorem c6_disconnected_no_path (g : MovieGraph) (s t : String)
    (hs : s ∈ g.nodes) (ht : t ∈ g.nodes)
    (h : ∀ p, ¬ WalkFT g s t p) :
    path_to_actor g s t = .error .noPath :=
  path_to_actor_noPath hs ht h

/-- C6 witness: two movies with disjoint casts; `Alice` and `Carol` are
in different components, and the query raises the no-path error. -/
theorem c6_disconnected_no_path_witness :
    ("Alice" ∈ gDisc.nodes ∧ "Carol" ∈ gDisc.nodes ∧
      (∀ p, ¬ WalkFT gDisc "Alice" "Carol" p)) ∧
    path_to_actor gDisc "Alice" "Carol" = .error .noPath := by
  have hgood : GoodGraph gDisc := buildGraph_good _
  have hnw : ∀ p, ¬ WalkFT gDisc "Alice" "Carol" p := by
    intro p hw
    have hmem := reaches_mem_keys hgood.symm hw
    revert hmem
    decide
  exact ⟨⟨by decide, by decide, hnw⟩,
    c6_disconnected_no_path gDisc "Alice" "Carol" (by decide) (by decide) hnw⟩

/-- C8: degree symmetry fails on a collision dataset with two
equal-length shortest paths of different movie-node content: the
breadth-first tie-break returns degree 1 from `Ann` to `Bert` but
degree 2 from `Bert` to `Ann`. -/
theorem c8_counterexample :
    "Ann" ∈ gAsym.actor_names ∧ "Bert" ∈ gAsym.actor_names ∧
    path_to_actor gAsym "Ann" "Bert" =
      .ok (["Ann", "T1", "T2", "T3", "Bert"], 1) ∧
    path_to_actor gAsym "Bert" "Ann" =
      .ok (["Bert", "T5", "Cleo", "T4", "Ann"], 2) ∧
    (1 : Int) ≠ 2 :=
  ⟨by decide, by decide, rfl, rfl, by decide⟩

/-- C8 (amended): in every built graph whose movie-title and actor-name
sets are disjoint, whenever the queries in both directions between two
actor nodes succeed, they return equal degrees. -/
theorem c8_symmetric_degree (lines : List String) (g : MovieGraph)
    (hg : g = buildGraph lines)
    (hdisj : ∀ x ∈ g.movie_titles, x ∉ g.actor_names)
    (a b : String) (p q : List String) (d e : Int)
    (ha : a ∈ g.actor_names) (hb : b ∈ g.actor_names)
    (hab : path_to_actor g a b = .ok (p, d))
    (hba : path_to_actor g b a = .ok (q, e)) :
    d = e := by
  subst hg
  have hgood := buildGraph_good lines
  have hma : a ∉ (buildGraph lines).movie_titles := fun h => hdisj a h ha
  have hmb : b ∉ (buildGraph lines).movie_titles := fun h => hdisj b h hb
  obtain ⟨-, hd, -, hw1, hmin1⟩ := degree_formula hgood hdisj hab hma hmb
  obtain ⟨-, he, -, hw2, hmin2⟩ := degree_formula hgood hdisj hba hmb hma
  have hle1 : p.length ≤ q.length := by
    have h := hmin1 q.reverse (walkFT_reverse hw2)
    simpa using h
  have hle2 : q.length ≤ p.length := by
    have h := hmin2 p.reverse (walkFT_reverse hw1)
    simpa using h
  rw [hd, he, le_antisymm hle1 hle2]

/-- C8 witness: on the scenario graph both directions of the
`Alice`–`Bob` query return degree 1. -/
theorem c8_symmetric_degree_witness :
    path_to_actor gScenario "Alice" "Bob" =
      .ok (["Alice", "Movie A", "Bob"], 1) ∧
    path_to_actor gScenario "Bob" "Alice" =
      .ok (["Bob", "Movie A", "Alice"], 1) ∧
    (1 : Int) = 1 :=
  ⟨rfl, rfl, c8_symmetric_degree ["Movie A/Alice/Bob"] gScenario rfl
    (by decide) "Alice" "Bob" ["Alice", "Movie A", "Bob"]
    ["Bob", "Movie A", "Alice"] 1 1 (by decide) (by decide) rfl rfl⟩

/-- C9: for every node present in the graph, the distance dictionary
starts with the target itself at distance 0, so the halved even-distance
list contains 0 and is non-empty, the mean is computed with a non-zero
denominator (the operation returns a result, not a division-by-zero
error), and an isolated target yields mean 0. -/
theorem c9_target_degree_zero (g : MovieGraph) (t : String)
    (ht : t ∈ g.nodes) :
    (∃ rest, distsFrom g t = (t, 0) :: rest) ∧
    0 ∈ actorValues g t ∧ ¬ (actorValues g t).length = 0 ∧
    average_number g t =
      .ok (histCounts (actorValues g t),
        ((actorValues g t).sum : ℚ) / ((actorValues g t).length : ℚ)) ∧
    (actorValues g t = [0] → average_number g t = .ok (histCounts [0], 0)) := by
  obtain ⟨vrest, hval⟩ := actorValues_cons g t
  refine ⟨distsFrom_cons g t, ?_, actorValues_length_ne_zero g t,
    average_number_eq g t ht, ?_⟩
  · rw [hval]
    exact List.mem_cons_self 0 vrest
  · intro h0
    rw [average_number_eq g t ht, h0]
    have hm : (([0] : List ℕ).sum : ℚ) / (([0] : List ℕ).length : ℚ) = 0 := by
      norm_num
    rw [hm]

/-- C9 witness: the distance distribution for `Alice` on the scenario
graph contains the degree 0 for `Alice` herself. -/
theorem c9_target_degree_zero_witness :
    "Alice" ∈ gScenario.nodes ∧ 0 ∈ actorValues gScenario "Alice" :=
  ⟨by decide, (c9_target_degree_zero gScenario "Alice" (by decide)).2.1⟩

/-- C10: neither query validates the node kind: any present node —
movie titles included — is accepted; the path query can only fail with
the no-path error, and the distribution query returns a result. -/
theorem c10_no_kind_validation (g : MovieGraph) (s t : String)
    (hs : s ∈ g.nodes) (ht : t ∈ g.nodes) :
    path_to_actor g s t ≠ .error .nodeNotFound ∧
    path_to_actor g s t ≠ .error .divisionByZero ∧
    ∃ r, average_number g t = .ok r := by
  refine ⟨?_, ?_, ⟨_, average_number_eq g t ht⟩⟩
  · intro her
    unfold path_to_actor at her
    rw [if_pos ⟨hs, ht⟩] at her
    cases hsp : shortest_path g s t with
    | some p => rw [hsp] at her; exact Except.noConfusion her
    | none =>
        rw [hsp] at her
        simp at her
  · intro her
    unfold path_to_actor at her
    rw [if_pos ⟨hs, ht⟩] at her
    cases hsp : shortest_path g s t with
    | some p => rw [hsp] at her; exact Except.noConfusion her
    | none =>
        rw [hsp] at her
        simp at her

/-- C10 witness: the movie-title node `"Movie A"` is accepted as source
and target by both queries. -/
theorem c10_no_kind_validation_witness :
    "Movie A" ∈ gScenario.nodes ∧
    path_to_actor gScenario "Movie A" "Movie A" ≠ .error .nodeNotFound ∧
    (∃ r, average_number gScenario "Movie A" = .ok r) := by
  have h := c10_no_kind_validation gScenario "Movie A" "Movie A"
    (by decide) (by decide)
  exact ⟨by decide, h.1, h.2.2⟩

/-- C4: on a chain of seven movies the actor `A7` sits at degree 7 from
`A0`; the histogram bins only cover degrees 0 through 6, so the bucket
counts sum to 7 while 8 actor nodes are reachable from `A0`. -/
theorem c4_counterexample :
    "A0" ∈ gChain.nodes ∧
    (∃ m, average_number gChain "A0" = .ok ([1, 1, 1, 1, 1, 1, 1], m)) ∧
    ([1, 1, 1, 1, 1, 1, 1] : List ℕ).sum = 7 ∧
    ((distsFrom gChain "A0").filter
      (fun e => decide (e.1 ∈ gChain.actor_names))).length = 8 ∧
    (7 : ℕ) ≠ 8 := by
  refine ⟨by decide, ⟨_, rfl⟩, by decide, by decide, by decide⟩

/-- C4 (amended): for every built graph with disjoint movie/actor sets
and every actor-node target, the histogram bucket counts sum to the
number of actor nodes reachable from the target at degree at most 6
(the bucketing supports only degrees 0 through 6, larger degrees are
dropped); the dictionary keys are exactly the reachable nodes, without
duplicates. -/
theorem c4_histogram_truncated (lines : List String) (g : MovieGraph)
    (hg : g = buildGraph lines)
    (hdisj : ∀ x ∈ g.movie_titles, x ∉ g.actor_names)
    (t : String) (ht : t ∈ g.nodes) (hta : t ∉ g.movie_titles) :
    (histCounts (actorValues g t)).sum =
      ((distsFrom g t).filter (fun e =>
        decide (e.1 ∈ g.actor_names) && decide (e.2 / 2 ≤ 6))).length ∧
    ((distsFrom g t).map Prod.fst).Nodup ∧
    (∀ w, w ∈ (distsFrom g t).map Prod.fst ↔ ∃ p, WalkFT g t w p) := by
  subst hg
  have hgood := buildGraph_good lines
  have HB := good_HB hgood hdisj
  have hmst : mside (buildGraph lines) t = false := decide_eq_false hta
  have htA : t ∈ (buildGraph lines).actor_names := by
    rcases hgood.nodeSide t ht with h | h
    · exact absurd h hta
    · exact h
  have hAiff : ∀ e ∈ distsFrom (buildGraph lines) t,
      ((e : String × Nat).2 % 2 = 0 ↔
        e.1 ∈ (buildGraph lines).actor_names) := by
    intro e he
    have hpar := distsFrom_parity HB hmst e he
    constructor
    · intro hev
      have hnm := hpar.mp hev
      obtain ⟨p, hp, -⟩ := distsFrom_sound e he
      rcases walk_last_side hgood hp with h | h | h
      · rw [h]; exact htA
      · exact absurd h hnm
      · exact h
    · intro hA
      exact hpar.mpr (fun hm => hdisj e.1 hm hA)
  refine ⟨?_, distsFrom_keys_nodup _ _, ?_⟩
  · rw [histSum_eq]
    apply congrArg List.length
    apply List.filter_congr
    intro e he
    have h7 : (e.2 / 2 < 7) ↔ (e.2 / 2 ≤ 6) := by omega
    cases hpar : (e.2 % 2 == 0) with
    | false =>
        have hne : ¬ (e.2 % 2 = 0) := by
          intro h0
          rw [h0] at hpar
          simp at hpar
        have hnA : (decide (e.1 ∈ (buildGraph lines).actor_names)) = false := by
          apply decide_eq_false
          intro hA
          exact hne ((hAiff e he).mpr hA)
        rw [hnA]
        simp
    | true =>
        have hev : e.2 % 2 = 0 := by
          have h0 := hpar
          simp only [beq_iff_eq] at h0
          exact h0
        have hA : (decide (e.1 ∈ (buildGraph lines).actor_names)) = true :=
          decide_eq_true ((hAiff e he).mp hev)
        rw [hA]
        simp only [Bool.and_true, Bool.true_and]
        exact decide_eq_decide.mpr h7
  · intro w
    constructor
    · intro hw
      rw [List.mem_map] at hw
      obtain ⟨e, he, rfl⟩ := hw
      obtain ⟨p, hp, -⟩ := distsFrom_sound e he
      exact ⟨p, hp⟩
    · rintro ⟨p, hp⟩
      exact reaches_mem_keys hgood.symm hp

/-- C4 witness: the truncated-histogram identity instantiated on the
scenario graph with target `Alice`. -/
theorem c4_histogram_truncated_witness :
    ("Alice" ∈ gScenario.nodes ∧ "Alice" ∉ gScenario.movie_titles) ∧
    (histCounts (actorValues gScenario "Alice")).sum =
      ((distsFrom gScenario "Alice").filter (fun e =>
        decide (e.1 ∈ gScenario.actor_names) &&
        decide (e.2 / 2 ≤ 6))).length :=
  ⟨⟨by decide, by decide⟩,
    (c4_histogram_truncated ["Movie A/Alice/Bob"] gScenario rfl (by decide)
      "Alice" (by decide) (by decide)).1⟩

end KevinBacon
